import Mathlib

/-!
Verification development for the `rklab` chunk-matching program
(`src/rklab/rkmatch.c`, `src/rklab/bloom.c`).

The C code is shallowly embedded over `ℕ`.  All `long long` values that
occur at run time are nonnegative and bounded by `2 * BIG_PRIME` (and all
products by `256 * BIG_PRIME < 2^63`), so C's 64-bit signed arithmetic
performs exact integer arithmetic on them and the `ℕ` embedding is faithful.
-/

set_option autoImplicit false

namespace RKLab

/-! ### Modular arithmetic helpers (rkmatch.c lines 22-55) -/

/-- `long long BIG_PRIME = 5003943032159437;` (rkmatch.c line 23). -/
def BIG_PRIME : ℕ := 5003943032159437

/-- `madd` (rkmatch.c lines 37-41):
`return ((a+b)>BIG_PRIME?(a+b-BIG_PRIME):(a+b));` -/
def madd (a b : ℕ) : ℕ :=
  if a + b > BIG_PRIME then a + b - BIG_PRIME else a + b

/-- `mdel` (rkmatch.c lines 44-48):
`return ((a>b)?(a-b):(a+BIG_PRIME-b));` -/
def mdel (a b : ℕ) : ℕ :=
  if a > b then a - b else a + BIG_PRIME - b

/-- `mmul` (rkmatch.c lines 51-55): `return ((a*b) % BIG_PRIME);` -/
def mmul (a b : ℕ) : ℕ :=
  (a * b) % BIG_PRIME

/-! ### The Rabin-Karp window hash (rkmatch.c lines 202-261) -/

/-- One iteration of the initial-hash loop (rkmatch.c lines 221-224):
`hash = madd(mmul(base, hash), byte)` with `base = 256`. -/
def hashStep (h c : ℕ) : ℕ := madd (mmul 256 h) c

/-- The from-scratch window hash: the Horner loop of rkmatch.c lines
221-224 applied to a whole window. -/
def hash_window (w : List ℕ) : ℕ := w.foldl hashStep 0

/-- `n` iterations of the `base_exp` loop (rkmatch.c lines 216-218):
`base_exp = mmul(base, base_exp)` starting from `1`. -/
def base_expIter : ℕ → ℕ
  | 0 => 1
  | n + 1 => mmul 256 (base_expIter n)

/-- `base_exp` as computed for chunk length `k`: the loop runs `k - 1`
times (rkmatch.c lines 216-218). -/
def base_exp (k : ℕ) : ℕ := base_expIter (k - 1)

/-- The exact (unreduced) Horner value of a window, used to state the
congruences satisfied by `hash_window`. -/
def polyHash (w : List ℕ) : ℕ := w.foldl (fun h c => 256 * h + c) 0

/-- One rolling update (rkmatch.c lines 249-253): remove the outgoing
byte's contribution, multiply by the base, add the incoming byte:
`ts_hash = mmul(base, mdel(ts_hash, mmul(ts[i], base_exp)));`
`ts_hash = madd(ts_hash, ts[i + k]);`
The subsequent `while (ts_hash < 0)` loop (lines 255-257) never executes,
since every value involved is nonnegative. -/
def rollStep (bexp tsh out inc : ℕ) : ℕ :=
  madd (mmul 256 (mdel tsh (mmul out bexp))) inc

/-- The window hash at position `i`, obtained by hashing the first window
from scratch (rkmatch.c lines 221-224) and then applying the rolling
update of lines 249-253 once per position. -/
def rollHash (ts : List ℕ) (k : ℕ) : ℕ → ℕ
  | 0 => hash_window (ts.take k)
  | i + 1 => rollStep (base_exp k) (rollHash ts k i) (ts.getD i 0) (ts.getD (i + k) 0)

/-- The main scan loop of `rabin_karp_match` (rkmatch.c lines 228-259).
`fuel` counts the remaining iterations of `for (i = 0; i < n - k; i++)`,
so it starts at `n - k`.  State: position `i`, current `ts_hash`, and
`response`.  When `ts_hash == ps_hash` the code byte-compares the window
(lines 240-247) and does NOT roll; otherwise it rolls (lines 251-253).
The `printf` calls only produce output and are omitted. -/
def rkGo (ps : List ℕ) (psh bexp k : ℕ) (ts : List ℕ) : ℕ → ℕ → ℕ → Bool → Bool
  | 0, _, _, resp => resp
  | fuel + 1, i, tsh, resp =>
    if tsh = psh then
      rkGo ps psh bexp k ts fuel (i + 1) tsh
        (resp || (List.range k).all fun j => ts.getD (i + j) 0 == ps.getD j 0)
    else
      rkGo ps psh bexp k ts fuel (i + 1)
        (rollStep bexp tsh (ts.getD i 0) (ts.getD (i + k) 0)) resp

/-- `rabin_karp_match` (rkmatch.c lines 202-261): `base_exp` loop
(lines 216-218), initial hashes of `ps[0..k)` and `ts[0..k)`
(lines 221-224), then the scan loop over `i < n - k`. -/
def rabin_karp_match (ps : List ℕ) (k : ℕ) (ts : List ℕ) : Bool :=
  rkGo ps (hash_window (ps.take k)) (base_exp k) k ts
    (ts.length - k) 0 (hash_window (ts.take k)) false

/-! ### The naive matcher (rkmatch.c lines 161-182) -/

/-- The inner loop of `simple_substr_match` (rkmatch.c lines 171-179),
at outer position `i`, inner index `j`, with `fuel = k - j` remaining
iterations.  Reads of `ts` use `List.get?`, so an out-of-bounds read of
`ts[i+j]` is the `none` result.  `some true` models `return 1`;
`some false` models falling through to the next outer iteration. -/
def simpleInner (ps ts : List ℕ) (k i : ℕ) : ℕ → ℕ → Option Bool
  | _, 0 => some false
  | j, fuel + 1 =>
    match ts.get? (i + j) with
    | none => none
    | some a =>
      if a = ps.getD j 0 then
        if j + 1 = k then some true else simpleInner ps ts k i (j + 1) fuel
      else some false

/-- The outer loop of `simple_substr_match` (rkmatch.c lines 170-180):
`for (i = 0; i < n; i++)`, with `fuel = n - i`. -/
def simpleOuter (ps ts : List ℕ) (k : ℕ) : ℕ → ℕ → Option Bool
  | _, 0 => some false
  | i, fuel + 1 =>
    match simpleInner ps ts k i 0 k with
    | none => none
    | some true => some true
    | some false => simpleOuter ps ts k (i + 1) fuel

/-- `simple_substr_match` (rkmatch.c lines 161-182), in a total embedding
where an out-of-bounds read of `ts` yields `none`. -/
def simple_substr_match (ps : List ℕ) (k : ℕ) (ts : List ℕ) : Option Bool :=
  simpleOuter ps ts k 0 ts.length

/-! ### Exact match (rkmatch.c lines 136-154) -/

/-- The comparison loop of `exact_match` (rkmatch.c lines 146-150):
`for (i = 0; qs[i]; i++) if (qs[i] != ts[i]) return 0;`.
The loop condition is the byte `qs[i]` itself, so it stops at the first
zero byte.  `List.getD _ 0` models the NUL terminator that `normalize`
writes at index `qs.length`; `fuel = qs.length + 1 - i` is exact. -/
def exactGo (qs ts : List ℕ) : ℕ → ℕ → Bool
  | 0, _ => true
  | fuel + 1, i =>
    if qs.getD i 0 = 0 then true
    else if qs.getD i 0 = ts.getD i 0 then exactGo qs ts fuel (i + 1)
    else false

/-- `exact_match` (rkmatch.c lines 136-154): length check, then the
NUL-bounded comparison loop. -/
def exact_match (qs ts : List ℕ) : Bool :=
  if qs.length ≠ ts.length then false
  else exactGo qs ts (qs.length + 1) 0

/-! ### The normalizer (rkmatch.c lines 112-134) -/

/-- C `isspace` on an unsigned-char value: space or `\t \n \v \f \r`. -/
def isspaceB (c : ℕ) : Bool := c == 32 || (9 ≤ c && c ≤ 13)

/-- C `isupper` on an unsigned-char value. -/
def isupperB (c : ℕ) : Bool := 65 ≤ c && c ≤ 90

/-- C `tolower` on an unsigned-char value. -/
def tolowerB (c : ℕ) : ℕ := if isupperB c then c + 32 else c

/-- One iteration of the `normalize` loop (rkmatch.c lines 119-130),
operating in place on the buffer with write cursor `j`; note that the
look-behind `buf[i-1]` (line 124) reads the partially rewritten buffer,
exactly as the C code does. -/
def normalizeStep (len : ℕ) (s : List ℕ × ℕ) (i : ℕ) : List ℕ × ℕ :=
  let c := s.1.getD i 0
  if isupperB c then (s.1.set s.2 (tolowerB c), s.2 + 1)
  else if isspaceB c then
    if 0 < i ∧ i < len - 1 ∧ isspaceB (s.1.getD (i - 1) 0) = false then
      (s.1.set s.2 32, s.2 + 1)
    else s
  else (s.1.set s.2 c, s.2 + 1)

/-- `normalize` (rkmatch.c lines 112-134): the in-place rewriting loop,
followed by the terminator write `buf[j] = 0` (line 131).  Returns the
final buffer and the returned length `j`. -/
def normalize (buf : List ℕ) : List ℕ × ℕ :=
  let r := (List.range buf.length).foldl (normalizeStep buf.length) (buf, 0)
  (r.1.set r.2 0, r.2)

/-- The normalized string: the first `j` bytes of the rewritten buffer,
where `j` is the length `normalize` returns. -/
def normOut (buf : List ℕ) : List ℕ := (normalize buf).1.take (normalize buf).2

/-! ### The Bloom filter (src/rklab/bloom.c) -/

/-- `const int H1PRIME = 4189793;` (bloom.c line 10). -/
def H1PRIME : ℕ := 4189793

/-- `const int H2PRIME = 3296731;` (bloom.c line 11). -/
def H2PRIME : ℕ := 3296731

/-- `const int BLOOM_HASH_NUM = 10;` (bloom.c line 12). -/
def BLOOM_HASH_NUM : ℕ := 10

/-- `hash_i` (bloom.c lines 15-20):
`return ((x % H1PRIME) + i*(x % H2PRIME) + 1 + i*i);`
For `i < 10` the value is below `2^31`, so the C `int` return type does
not truncate it; the claims quantify over nonnegative keys only. -/
def hash_i (i x : ℕ) : ℕ := (x % H1PRIME) + i * (x % H2PRIME) + 1 + i * i

/-- The filter: bit count plus the bitmap, one `Bool` per bit
(`bloom.h`'s `{ int bsz; char *buf; }` with the byte packing elided). -/
structure bloom_filter where
  bsz : ℕ
  buf : List Bool

/-- Modelled from the spec: the body of `bloom_add` is missing from the
source (bloom.c line 44 is the placeholder `/* Your code here */`).
Spec section 4.2: `add(key)` sets the bits at `derive_index(i, key)` for every
`i in [0, hash_fan_out)`, where `derive_index` applies `hash_i` and
reduces modulo `bit_count`. -/
def bloom_add (f : bloom_filter) (elm : ℕ) : bloom_filter :=
  ⟨f.bsz, (List.range BLOOM_HASH_NUM).foldl
    (fun b i => b.set (hash_i i elm % f.bsz) true) f.buf⟩

/-- Modelled from the spec: the body of `bloom_query` is missing from the
source (bloom.c line 53 is the placeholder `/* Your code here */`).
Spec section 4.2: `query(key)` is true iff all `hash_fan_out` derived bits are
set. -/
def bloom_query (f : bloom_filter) (elm : ℕ) : Bool :=
  (List.range BLOOM_HASH_NUM).all
    (fun i => f.buf.getD (hash_i i elm % f.bsz) false)

/-- Modelled from the spec: `derive_index(i, key)` (spec section 4.2) —
`hash_i` (bloom.c lines 15-20) reduced modulo `bit_count`; the reduction
lives in the missing `bloom_add`/`bloom_query` bodies. -/
def derive_index (i key bsz : ℕ) : ℕ := hash_i i key % bsz

/-! ### The driver (rkmatch.c lines 302-403) -/

/-- Outcome of a `main` run after the documents are loaded: the default
switch branch (`"Wrong algorithm type"`, lines 393-395) is `configError`;
the other branches print a result.  `diverges` marks `k = 0`, where the
C chunk loop `for (i = 0; (i+k) <= qdoc_len; i += k)` never advances;
`undef` marks an out-of-bounds read inside `simple_substr_match`. -/
inductive MainOut where
  | configError : MainOut
  | exactRes : Bool → MainOut
  | chunkRes : ℕ → ℕ → MainOut
  | undef : MainOut
  | diverges : MainOut
deriving DecidableEq

/-- The chunk start offsets visited by
`for (i = 0; (i+k) <= qdoc_len; i += k)` (rkmatch.c lines 366, 378),
for `k ≥ 1`: exactly `0, k, ..., (qdoc_len/k - 1)*k`. -/
def chunkStarts (qlen k : ℕ) : List ℕ :=
  (List.range (qlen / k)).map (fun j => j * k)

/-- The SIMPLE branch loop (rkmatch.c lines 366-370): count matching
chunks; `none` if any chunk scan performs an out-of-bounds read. -/
def simpleChunks (q d : List ℕ) (k : ℕ) : Option ℕ :=
  (chunkStarts q.length k).foldl
    (fun acc i =>
      match acc, simple_substr_match ((q.drop i).take k) k d with
      | some m, some b => some (if b then m + 1 else m)
      | _, _ => none)
    (some 0)

/-- The RK branch loop (rkmatch.c lines 378-382): count matching chunks. -/
def rkChunks (q d : List ℕ) (k : ℕ) : ℕ :=
  (chunkStarts q.length k).countP (fun i => rabin_karp_match ((q.drop i).take k) k d)

/-- The algorithm dispatch of `main` (rkmatch.c lines 355-396) after both
documents are read and normalized (lines 348-353).  `k` is the `-k`
value; `main` performs no validation of it.  For the chunk algorithms,
`k = 0` makes the C loop spin forever (`diverges`); the RKBATCH branch
calls the stub `rabin_karp_batchmatch`, which returns 0 (line 299). -/
def runMain (algo k : ℕ) (qdoc doc : List ℕ) : MainOut :=
  let q := normOut qdoc
  let d := normOut doc
  if algo = 0 then MainOut.exactRes (exact_match q d)
  else if algo = 1 then
    if k = 0 then MainOut.diverges
    else
      match simpleChunks q d k with
      | some m => MainOut.chunkRes m (q.length / k)
      | none => MainOut.undef
  else if algo = 2 then
    if k = 0 then MainOut.diverges
    else MainOut.chunkRes (rkChunks q d k) (q.length / k)
  else if algo = 3 then
    if k = 0 then MainOut.diverges
    else MainOut.chunkRes 0 (q.length / k)
  else MainOut.configError

/-! ## Helper lemmas about the modular arithmetic -/

theorem BIG_PRIME_pos : 0 < BIG_PRIME := by norm_num [BIG_PRIME]

theorem mmul_lt (a b : ℕ) : mmul a b < BIG_PRIME := Nat.mod_lt _ BIG_PRIME_pos

theorem mmul_modEq (a b : ℕ) : mmul a b ≡ a * b [MOD BIG_PRIME] := Nat.mod_modEq _ _

theorem madd_modEq (a b : ℕ) : madd a b ≡ a + b [MOD BIG_PRIME] := by
  unfold madd Nat.ModEq BIG_PRIME
  split <;> omega

/-- Adding back the subtrahend recovers the minuend, possibly shifted by
one modulus. -/
theorem mdel_add (a b : ℕ) (hb : b ≤ BIG_PRIME) :
    mdel a b + b = a ∨ mdel a b + b = a + BIG_PRIME := by
  unfold mdel
  split <;> omega

theorem hashStep_modEq (a b c : ℕ) (h : a ≡ b [MOD BIG_PRIME]) :
    hashStep a c ≡ 256 * b + c [MOD BIG_PRIME] :=
  (madd_modEq _ _).trans (((mmul_modEq 256 a).trans (h.mul_left 256)).add_right c)

theorem hash_fold_modEq : ∀ (w : List ℕ) (a b : ℕ), a ≡ b [MOD BIG_PRIME] →
    w.foldl hashStep a ≡ w.foldl (fun h c => 256 * h + c) b [MOD BIG_PRIME] := by
  intro w
  induction w with
  | nil => exact fun a b h => h
  | cons c w ih => exact fun a b h => ih _ _ (hashStep_modEq a b c h)

theorem hash_window_modEq (w : List ℕ) :
    hash_window w ≡ polyHash w [MOD BIG_PRIME] :=
  hash_fold_modEq w 0 0 rfl

theorem polyHash_shift (w : List ℕ) : ∀ a : ℕ,
    w.foldl (fun h c => 256 * h + c) a = a * 256 ^ w.length + polyHash w := by
  induction w with
  | nil => intro a; simp [polyHash]
  | cons c w ih =>
    intro a
    have h1 := ih (256 * a + c)
    have h2 := ih c
    simp only [polyHash, List.foldl_cons, List.length_cons, mul_zero, zero_add] at h1 h2 ⊢
    rw [h1, h2]
    ring

theorem polyHash_cons (b : ℕ) (w : List ℕ) :
    polyHash (b :: w) = b * 256 ^ w.length + polyHash w := by
  simp only [polyHash, List.foldl_cons, mul_zero, zero_add]
  exact polyHash_shift w b

theorem base_expIter_modEq (n : ℕ) : base_expIter n ≡ 256 ^ n [MOD BIG_PRIME] := by
  induction n with
  | zero => rfl
  | succ n ih =>
    have h : mmul 256 (base_expIter n) ≡ 256 * 256 ^ n [MOD BIG_PRIME] :=
      (mmul_modEq 256 _).trans (ih.mul_left 256)
    simpa [pow_succ, Nat.mul_comm] using h

/-- The heart of hash consistency: one rolling update applied to the
from-scratch hash of the window `b :: mid` yields exactly the
from-scratch hash of the next window `mid ++ [c]`.  This holds as an
equality of the concrete `long long` values (not merely of residues)
because both sides end with `madd (mmul 256 _) c`, and `mmul`
canonicalizes its result into `[0, BIG_PRIME)`. -/
theorem rollStep_hash (mid : List ℕ) (b c : ℕ) :
    rollStep (base_expIter mid.length) (hash_window (b :: mid)) b c
      = hash_window (mid ++ [c]) := by
  set Y := mmul b (base_expIter mid.length) with hYdef
  have hY : Y ≤ BIG_PRIME := le_of_lt (mmul_lt _ _)
  have h1 : hash_window (b :: mid) ≡ b * 256 ^ mid.length + polyHash mid [MOD BIG_PRIME] :=
    (polyHash_cons b mid) ▸ hash_window_modEq (b :: mid)
  have h2 : hash_window mid + Y ≡ b * 256 ^ mid.length + polyHash mid [MOD BIG_PRIME] := by
    have hb : Y ≡ b * 256 ^ mid.length [MOD BIG_PRIME] :=
      (mmul_modEq _ _).trans ((base_expIter_modEq mid.length).mul_left b)
    have h := (hash_window_modEq mid).add hb
    calc hash_window mid + Y
        ≡ polyHash mid + b * 256 ^ mid.length [MOD BIG_PRIME] := h
      _ = b * 256 ^ mid.length + polyHash mid := Nat.add_comm _ _
  have hsub : mdel (hash_window (b :: mid)) Y ≡ hash_window mid [MOD BIG_PRIME] := by
    refine Nat.ModEq.add_right_cancel' Y ?_
    rcases mdel_add (hash_window (b :: mid)) Y hY with h | h
    · rw [h]; exact h1.trans h2.symm
    · rw [h]
      calc hash_window (b :: mid) + BIG_PRIME
          ≡ hash_window (b :: mid) + 0 [MOD BIG_PRIME] :=
            Nat.ModEq.add_left _ (Nat.modEq_zero_iff_dvd.mpr dvd_rfl)
        _ = hash_window (b :: mid) := by omega
        _ ≡ hash_window mid + Y [MOD BIG_PRIME] := h1.trans h2.symm
  have hs : mdel (hash_window (b :: mid)) Y % BIG_PRIME
      = hash_window mid % BIG_PRIME := hsub
  have hmm : mmul 256 (mdel (hash_window (b :: mid)) Y) = mmul 256 (hash_window mid) := by
    unfold mmul
    rw [Nat.mul_mod, hs, ← Nat.mul_mod]
  unfold rollStep
  rw [hmm]
  simp [hash_window, List.foldl_append, hashStep]

/-- C1.  Hash consistency: for every byte buffer `ts`, chunk size `k > 0`
and window position `i` with `i + k ≤ ts.length`, the hash obtained by
initializing at position 0 with the Horner loop and applying the rolling
update (rkmatch.c lines 249-253) position by position equals the hash
recomputed from scratch (rkmatch.c lines 221-224) at position `i`. -/
theorem roll_hash_consistency (ts : List ℕ) (k : ℕ) (hk : 0 < k) :
    ∀ i : ℕ, i + k ≤ ts.length → rollHash ts k i = hash_window ((ts.drop i).take k) := by
  intro i
  induction i with
  | zero => intro _; simp [rollHash]
  | succ i ih =>
    intro h
    have hik : i + k ≤ ts.length := by omega
    have hi : i < ts.length := by omega
    have hik' : i + k < ts.length := by omega
    obtain ⟨k', rfl⟩ : ∃ k', k = k' + 1 := ⟨k - 1, by omega⟩
    have hmid : ((ts.drop (i + 1)).take k').length = k' := by
      rw [List.length_take, List.length_drop]
      omega
    have hgetd : ts.getD i 0 = ts.get ⟨i, hi⟩ := List.getD_eq_getElem ts 0 hi
    have hwin : (ts.drop i).take (k' + 1)
        = ts.getD i 0 :: (ts.drop (i + 1)).take k' := by
      rw [List.drop_eq_getElem_cons hi, List.take_succ_cons, hgetd, List.get_eq_getElem]
    have hlast : i + 1 + k' < ts.length := by omega
    have hdl : k' < ((ts : List ℕ).drop (i + 1)).length := by
      rw [List.length_drop]; omega
    have hwin' : (ts.drop (i + 1)).take (k' + 1)
        = (ts.drop (i + 1)).take k' ++ [ts.getD (i + (k' + 1)) 0] := by
      rw [← List.take_concat_get' _ _ hdl]
      congr 2
      rw [List.getElem_drop]
      have he : i + 1 + k' < ts.length := hlast
      rw [List.getD_eq_getElem ts 0 (by omega : i + (k' + 1) < ts.length)]
      congr 1
      omega
    have hstep := rollStep_hash ((ts.drop (i + 1)).take k') (ts.getD i 0)
      (ts.getD (i + (k' + 1)) 0)
    rw [hmid] at hstep
    show rollStep (base_exp (k' + 1)) (rollHash ts (k' + 1) i)
        (ts.getD i 0) (ts.getD (i + (k' + 1)) 0)
      = hash_window ((ts.drop (i + 1)).take (k' + 1))
    rw [ih hik, hwin, hwin']
    have hbe : base_exp (k' + 1) = base_expIter k' := by
      simp [base_exp]
    rw [hbe]
    exact hstep

/-- C1 witness: the theorem applied at the concrete buffer
`[1, 2, 3, 4, 5]`, `k = 2`, position `i = 3`. -/
theorem roll_hash_consistency_witness :
    0 < 2 ∧ 3 + 2 ≤ List.length [1, 2, 3, 4, 5] ∧
      rollHash [1, 2, 3, 4, 5] 2 3 = hash_window (([1, 2, 3, 4, 5].drop 3).take 2) :=
  ⟨by decide, by decide,
    roll_hash_consistency [1, 2, 3, 4, 5] 2 (by decide) 3 (by decide)⟩

/-- C2 (code bug).  The scan loop of `rabin_karp_match` runs
`for (i = 0; i < n - k; i++)` (rkmatch.c line 228), so the final window
position `n - k` is never compared: with `ps = "a"`, `k = 1`,
`ts = "a"`, the query occurs at position `0 = n - k`, yet the function
returns 0 — the loop body executes zero times. -/
theorem rk_match_misses_final_window :
    rabin_karp_match [97] 1 [97] = false ∧
      (([97] : List ℕ).drop 0).take 1 = [97] := by decide

/-- C4 counterexample.  `madd` uses the strict comparison
`(a+b) > BIG_PRIME` (rkmatch.c line 40) and `mdel` uses `(a > b)`
(line 47), so when `a + b = BIG_PRIME` (resp. `a = b`) the result is
exactly `BIG_PRIME`: not equal to `(a + b) % BIG_PRIME` and not in
`[0, BIG_PRIME)`. -/
theorem madd_mdel_range_counterexample :
    madd 5003943032159436 1 = 5003943032159437 ∧
      (5003943032159436 + 1) % BIG_PRIME = 0 ∧
      ¬ madd 5003943032159436 1 < BIG_PRIME ∧
      mdel 1 1 = 5003943032159437 ∧
      (1 + BIG_PRIME - 1) % BIG_PRIME = 0 ∧
      ¬ mdel 1 1 < BIG_PRIME := by decide

/-- C4 as amended.  For `a, b` in `[0, BIG_PRIME)`: `madd a b` and
`mdel a b` are congruent to `a + b` and `a - b` modulo `BIG_PRIME` and
lie in `[0, BIG_PRIME]`; `madd a b` equals `(a + b) % BIG_PRIME` except
when `a + b` is exactly `BIG_PRIME` (it then returns `BIG_PRIME`), and
`mdel` adds back the modulus exactly when `a ≤ b`, returning `BIG_PRIME`
when `a = b`. -/
theorem madd_mdel_postconditions (a b : ℕ) (ha : a < BIG_PRIME) (hb : b < BIG_PRIME) :
    madd a b % BIG_PRIME = (a + b) % BIG_PRIME ∧
      madd a b ≤ BIG_PRIME ∧
      (a + b ≠ BIG_PRIME → madd a b = (a + b) % BIG_PRIME) ∧
      mdel a b % BIG_PRIME = (a + BIG_PRIME - b) % BIG_PRIME ∧
      mdel a b ≤ BIG_PRIME ∧
      (a ≠ b → mdel a b < BIG_PRIME) := by
  unfold madd mdel BIG_PRIME at *
  refine ⟨?_, ?_, fun h => ?_, ?_, ?_, fun h => ?_⟩ <;> split <;> omega

/-- C4 witness: the amended postconditions at `a = 2`, `b = 3`. -/
theorem madd_mdel_postconditions_witness :
    2 < BIG_PRIME ∧ 3 < BIG_PRIME ∧
      (madd 2 3 % BIG_PRIME = (2 + 3) % BIG_PRIME ∧
        madd 2 3 ≤ BIG_PRIME ∧
        (2 + 3 ≠ BIG_PRIME → madd 2 3 = (2 + 3) % BIG_PRIME) ∧
        mdel 2 3 % BIG_PRIME = (2 + BIG_PRIME - 3) % BIG_PRIME ∧
        mdel 2 3 ≤ BIG_PRIME ∧
        (2 ≠ 3 → mdel 2 3 < BIG_PRIME)) :=
  ⟨by decide, by decide, madd_mdel_postconditions 2 3 (by decide) (by decide)⟩

/-- C5.  Every derived Bloom bit index is
`((key % 4189793) + i*(key % 3296731) + 1 + i*i) % bit_count`
(`hash_i`, bloom.c lines 15-20, reduced modulo the bit count), and lies
in `[0, bit_count)` for every key. -/
theorem derive_index_correct (i key bsz : ℕ) (_hi : i < 10) (hb : 0 < bsz) :
    derive_index i key bsz
        = ((key % 4189793) + i * (key % 3296731) + 1 + i * i) % bsz ∧
      derive_index i key bsz < bsz :=
  ⟨rfl, Nat.mod_lt _ hb⟩

/-- C5 witness: the derived index at `i = 3`, `key = 99`,
`bit_count = 8`. -/
theorem derive_index_correct_witness :
    3 < 10 ∧ 0 < 8 ∧
      (derive_index 3 99 8
          = ((99 % 4189793) + 3 * (99 % 3296731) + 1 + 3 * 3) % 8 ∧
        derive_index 3 99 8 < 8) :=
  ⟨by decide, by decide, derive_index_correct 3 99 8 (by decide) (by decide)⟩

/-- C6 (code bug).  `normalize` fails to trim a trailing whitespace run
of length ≥ 2: on input `"ab  "` the space at index 2 passes the guard
`i < len - 1 && !isspace(buf[i-1])` (rkmatch.c line 124) and is emitted,
so the normalized string `"ab "` ends in a space, contradicting rule 3
of the function's own header comment (lines 104). -/
theorem normalize_keeps_trailing_space :
    normOut [97, 98, 32, 32] = [97, 98, 32] ∧ isspaceB 32 = true := by decide

/-- C7 (code bug).  The comparison loop of `exact_match` is bounded by
the byte value `qs[i]` (rkmatch.c line 146), not by the length `m`:
with `qs = [0, 1]` and `ts = [0, 2]` (both of length 2) the loop stops
at the leading zero byte and the differing byte at index 1 is never
compared, so the function returns 1 for two different buffers. -/
theorem exact_match_nul_byte_bug :
    exact_match [0, 1] [0, 2] = true ∧ ([0, 1] : List ℕ) ≠ [0, 2] := by decide

/-- C9.  Concrete scenario A: the window hash of the 4-byte buffer
`"aaaa"` equals `(97*256^3 + 97*256^2 + 97*256 + 97) mod
5003943032159437`. -/
theorem scenario_a_hash :
    hash_window [97, 97, 97, 97]
      = (97 * 256 ^ 3 + 97 * 256 ^ 2 + 97 * 256 + 97) % 5003943032159437 := by
  decide

/-- C10 (code bug).  The outer loop of `simple_substr_match` runs
`i` up to `n - 1` (rkmatch.c line 170), not `n - k`: with
`ps = "aa"`, `k = 2`, `ts = "ba"` (so `0 < k ≤ n`), the iteration
`i = 1` matches `ts[1] = ps[0]` and then reads `ts[2]`, one past the
end of the buffer — in the total embedding the out-of-range branch is
reached and the result is `none`. -/
theorem simple_substr_oob_read :
    simple_substr_match [97, 97] 2 [98, 97] = none ∧
      0 < 2 ∧ 2 ≤ List.length [98, 97] ∧ List.length [97, 97] = 2 := by decide

/-! ## Bitmap lemmas for the Bloom filter -/

theorem getD_set_self : ∀ (l : List Bool) (i : ℕ), i < l.length →
    (l.set i true).getD i false = true
  | [], i, h => absurd h (by simp)
  | _ :: _, 0, _ => rfl
  | _ :: l, i + 1, h => getD_set_self l i (by simpa using h)

theorem getD_set_mono : ∀ (l : List Bool) (i j : ℕ),
    l.getD i false = true → (l.set j true).getD i false = true
  | [], _, _, h => h
  | _ :: _, 0, 0, _ => rfl
  | _ :: _, 0, _ + 1, h => h
  | _ :: _, _ + 1, 0, h => h
  | _ :: l, i + 1, j + 1, h => getD_set_mono l i j h

theorem foldl_set_length (g : ℕ → ℕ) : ∀ (is : List ℕ) (b : List Bool),
    (is.foldl (fun b i => b.set (g i) true) b).length = b.length := by
  intro is
  induction is with
  | nil => intro b; rfl
  | cons hd tl ih =>
    intro b
    simp only [List.foldl_cons]
    rw [ih, List.length_set]

theorem foldl_set_mono (g : ℕ → ℕ) : ∀ (is : List ℕ) (b : List Bool) (idx : ℕ),
    b.getD idx false = true →
    (is.foldl (fun b i => b.set (g i) true) b).getD idx false = true := by
  intro is
  induction is with
  | nil => intro b idx h; exact h
  | cons hd tl ih =>
    intro b idx h
    simp only [List.foldl_cons]
    exact ih _ idx (getD_set_mono b idx (g hd) h)

theorem foldl_set_sets (g : ℕ → ℕ) : ∀ (is : List ℕ) (b : List Bool),
    (∀ i ∈ is, g i < b.length) → ∀ i ∈ is,
    (is.foldl (fun b i => b.set (g i) true) b).getD (g i) false = true := by
  intro is
  induction is with
  | nil => intro b _ i hi; simp at hi
  | cons hd tl ih =>
    intro b hbound i hi
    simp only [List.foldl_cons]
    rcases List.mem_cons.mp hi with rfl | hmem
    · exact foldl_set_mono g tl _ _
        (getD_set_self b (g i) (hbound i (List.mem_cons_self _ _)))
    · exact ih (b.set (g hd) true)
        (fun j hj => by rw [List.length_set]; exact hbound j (List.mem_cons_of_mem _ hj))
        i hmem

theorem bloom_add_bsz (f : bloom_filter) (x : ℕ) : (bloom_add f x).bsz = f.bsz := rfl

theorem bloom_add_length (f : bloom_filter) (x : ℕ) :
    (bloom_add f x).buf.length = f.buf.length :=
  foldl_set_length _ _ _

theorem bloom_query_true_iff (f : bloom_filter) (x : ℕ) :
    bloom_query f x = true ↔
      ∀ i ∈ List.range BLOOM_HASH_NUM, f.buf.getD (hash_i i x % f.bsz) false = true := by
  unfold bloom_query
  exact List.all_eq_true

theorem bloom_add_queries (f : bloom_filter) (x : ℕ)
    (hlen : f.buf.length = f.bsz) (hb : 0 < f.bsz) :
    bloom_query (bloom_add f x) x = true := by
  rw [bloom_query_true_iff]
  intro i hi
  show ((List.range BLOOM_HASH_NUM).foldl
      (fun b j => b.set (hash_i j x % f.bsz) true) f.buf).getD (hash_i i x % f.bsz) false
    = true
  exact foldl_set_sets (fun j => hash_i j x % f.bsz) _ f.buf
    (fun j _ => by rw [hlen]; exact Nat.mod_lt _ hb) i hi

theorem bloom_add_preserves (f : bloom_filter) (x y : ℕ)
    (h : bloom_query f x = true) : bloom_query (bloom_add f y) x = true := by
  rw [bloom_query_true_iff] at h ⊢
  intro i hi
  exact foldl_set_mono _ _ _ _ (h i hi)

/-- C3.  No false negatives: for a Bloom filter whose bitmap has
`bit_count` bits, immediately after `bloom_add f x` a `bloom_query` for
`x` returns true, and it stays true after any further sequence of
`bloom_add` calls with arbitrary keys — the folds only ever set bits. -/
theorem bloom_no_false_negatives (f : bloom_filter) (x : ℕ) (ks : List ℕ)
    (hlen : f.buf.length = f.bsz) (hb : 0 < f.bsz) :
    bloom_query (ks.foldl bloom_add (bloom_add f x)) x = true := by
  have step : ∀ (l : List ℕ) (g : bloom_filter), bloom_query g x = true →
      bloom_query (l.foldl bloom_add g) x = true := by
    intro l
    induction l with
    | nil => intro g h; exact h
    | cons hd tl ih =>
      intro g h
      exact ih _ (bloom_add_preserves g x hd h)
  exact step ks _ (bloom_add_queries f x hlen hb)

/-- C3 witness: an 8-bit filter, key 42, then two more adds. -/
theorem bloom_no_false_negatives_witness :
    (bloom_filter.mk 8 (List.replicate 8 false)).buf.length
        = (bloom_filter.mk 8 (List.replicate 8 false)).bsz ∧
      0 < (bloom_filter.mk 8 (List.replicate 8 false)).bsz ∧
      bloom_query
        (List.foldl bloom_add
          (bloom_add (bloom_filter.mk 8 (List.replicate 8 false)) 42) [7, 9]) 42 = true :=
  ⟨by decide, by decide,
    bloom_no_false_negatives (bloom_filter.mk 8 (List.replicate 8 false)) 42 [7, 9]
      (by decide) (by decide)⟩

/-- C8 counterexample.  `main` never validates `k`: with `k = 5` and a
1-byte query document, the RK branch runs zero chunk iterations and
prints the normal result `0 chunks matched (out of 0)` — it does not
report a configuration error. -/
theorem main_large_k_counterexample :
    runMain 2 5 [97] [97, 98] = MainOut.chunkRes 0 0 ∧
      runMain 2 5 [97] [97, 98] ≠ MainOut.configError := by decide

/-- C8 as amended.  `main` performs no validation of the chunk size:
for every `k` greater than the normalized query length, the SIMPLE, RK
and RKBATCH branches execute zero chunk iterations and report the
normal result `0 chunks matched (out of 0)`; no configuration error is
raised on this path (only an unrecognized algorithm selector reaches
the error branch). -/
theorem main_invalid_k_no_error (k : ℕ) (qdoc doc : List ℕ)
    (h : (normOut qdoc).length < k) :
    runMain 1 k qdoc doc = MainOut.chunkRes 0 0 ∧
      runMain 2 k qdoc doc = MainOut.chunkRes 0 0 ∧
      runMain 3 k qdoc doc = MainOut.chunkRes 0 0 := by
  have hk0 : k ≠ 0 := by omega
  have hdiv : (normOut qdoc).length / k = 0 := Nat.div_eq_of_lt h
  have hcs : chunkStarts (normOut qdoc).length k = [] := by
    unfold chunkStarts
    rw [hdiv]
    rfl
  refine ⟨?_, ?_, ?_⟩ <;>
    simp [runMain, hk0, hdiv, simpleChunks, rkChunks, hcs]

/-- C8 witness: the amended statement at `k = 5`, query `"a"`,
target `"b"`. -/
theorem main_invalid_k_no_error_witness :
    (normOut [97]).length < 5 ∧
      (runMain 1 5 [97] [98] = MainOut.chunkRes 0 0 ∧
        runMain 2 5 [97] [98] = MainOut.chunkRes 0 0 ∧
        runMain 3 5 [97] [98] = MainOut.chunkRes 0 0) :=
  ⟨by decide, main_invalid_k_no_error 5 [97] [98] (by decide)⟩

end RKLab
